import Mathlib

/-! # multi_level_map_utils: frame identifiers and level identifiers

A shallow embedding of `multi_level_map_utils/src/utils.cpp`.

* A `std::string` is embedded as a Lean `String`; every `Char` of the Lean
  string stands for one `char` of the C++ string.  The code only ever compares
  characters with `'/'` and with the letters of `"map"`, so nothing depends on
  how the remaining characters are encoded.
* A failed `assert` aborts the program and no value is returned.  A function
  whose body contains an `assert` therefore returns an `Option`: `none` is the
  abort, `some r` is the ordinary return of `r`.
* `boost::split` and `boost::is_any_of` are library code; they are embedded
  after the token scan of Boost.StringAlgo with `token_compress_off`, which is
  the mode the two-argument call in `levelIdFromFrameId` selects.
-/

namespace multi_level_map

/-- Modelled from the spec: `boost::is_any_of` is library code that is not part of the
source tree.  The predicate built by `boost::is_any_of(set)` is true exactly for the
characters of the delimiter set `set`. -/
def is_any_of (set : String) (c : Char) : Bool :=
  set.data.contains c

/-- Modelled from the spec: `boost::split` is library code that is not part of the
source tree.  This is its token scan without token compression, splitting on every
delimiter and keeping empty fragments.  `tok` is the fragment being read; every
character satisfying `pred` closes the current fragment and opens a new, empty one;
the end of the input closes the last fragment. -/
def splitFrom (pred : Char → Bool) : List Char → List Char → List (List Char)
  | tok, [] => [tok]
  | tok, c :: cs =>
    if pred c then tok :: splitFrom pred [] cs else splitFrom pred (tok ++ [c]) cs

/-- Modelled from the spec: the call `boost::split(Result, Input, Pred)` of the absent
library, as the fragments written to `Result`. -/
def split (Input : String) (pred : Char → Bool) : List String :=
  (splitFrom pred [] Input.data).map String.mk

/-- The call `std::string::find(c)`: the position of the first occurrence of `c`,
or `none` for `std::string::npos`. -/
def find (s : String) (c : Char) : Option Nat :=
  let i := s.data.indexOf c
  if i < s.data.length then some i else none

/-- The statement `assert (cond);`: continues when `cond` holds, aborts otherwise. -/
def assert (cond : Bool) : Option Unit :=
  if cond then some () else none

/-- The function `std::string frameIdFromLevelId(std::string level_id)`: one assertion
on the argument, then the concatenation. -/
def frameIdFromLevelId (level_id : String) : Option String := do
  assert (find level_id '/' == none)
  return "/" ++ level_id ++ "/map"

/-- The function `std::string levelIdFromFrameId(std::string frame_id)`: the split into
`components`, the three assertions in source order, then `components[1]`. -/
def levelIdFromFrameId (frame_id : String) : Option String := do
  let components := split frame_id (is_any_of "/")
  assert (components.length == 3)
  assert (components[0]? == some "")
  assert (components[2]? == some "map")
  components[1]?

/-! ## The library calls -/

theorem is_any_of_slash (c : Char) : is_any_of "/" c = true ↔ c = '/' := by
  simp [is_any_of, eq_comm]

theorem find_eq_none_iff (s : String) (c : Char) : find s c = none ↔ c ∉ s.data := by
  unfold find
  by_cases h : c ∈ s.data
  · have hlt : List.indexOf c s.data < s.data.length := List.indexOf_lt_length.mpr h
    rw [if_pos hlt]
    simp [h]
  · have hge : ¬ List.indexOf c s.data < s.data.length :=
      fun hlt => h (List.indexOf_lt_length.mp hlt)
    rw [if_neg hge]
    simp [h]

theorem splitFrom_sep (pred : Char → Bool) (tok rest : List Char) (c : Char)
    (hc : pred c = true) :
    splitFrom pred tok (c :: rest) = tok :: splitFrom pred [] rest := by
  simp [splitFrom, hc]

theorem splitFrom_append (pred : Char → Bool) (xs : List Char) :
    ∀ tok rest : List Char, (∀ c ∈ xs, pred c = false) →
      splitFrom pred tok (xs ++ rest) = splitFrom pred (tok ++ xs) rest := by
  induction xs with
  | nil => intro tok rest _; simp
  | cons x xs ih =>
    intro tok rest h
    have hx : pred x = false := h x (List.mem_cons_self x xs)
    have hxs : ∀ c ∈ xs, pred c = false := fun c hc => h c (List.mem_cons_of_mem x hc)
    simp [splitFrom, hx, ih (tok ++ [x]) rest hxs]

theorem splitFrom_length (pred : Char → Bool) (cs : List Char) :
    ∀ tok : List Char, (splitFrom pred tok cs).length = cs.countP pred + 1 := by
  induction cs with
  | nil => intro tok; simp [splitFrom]
  | cons c cs ih =>
    intro tok
    by_cases hc : pred c = true
    · simp [splitFrom, hc, ih]
    · simp [splitFrom, hc, ih]

theorem splitFrom_clean (pred : Char → Bool) (cs : List Char) :
    ∀ tok : List Char, (∀ c ∈ tok, pred c = false) →
      ∀ t ∈ splitFrom pred tok cs, ∀ c ∈ t, pred c = false := by
  induction cs with
  | nil =>
    intro tok htok t ht
    simp [splitFrom] at ht
    subst ht
    exact htok
  | cons c cs ih =>
    intro tok htok t ht
    by_cases hc : pred c = true
    · simp only [splitFrom, hc, if_true, List.mem_cons] at ht
      rcases ht with rfl | ht
      · exact htok
      · exact ih [] (by simp) t ht
    · simp only [splitFrom, hc] at ht
      refine ih (tok ++ [c]) ?_ t ht
      intro d hd
      rcases List.mem_append.mp hd with hd | hd
      · exact htok d hd
      · simp at hd
        subst hd
        simpa using hc

theorem splitFrom_intercalate (pred : Char → Bool) (sep : Char)
    (hsep : ∀ c, pred c = true ↔ c = sep) (cs : List Char) :
    ∀ tok : List Char, List.intercalate [sep] (splitFrom pred tok cs) = tok ++ cs := by
  induction cs with
  | nil => intro tok; simp [splitFrom, List.intercalate]
  | cons c cs ih =>
    intro tok
    by_cases hc : pred c = true
    · have hcs : c = sep := (hsep c).mp hc
      have hne : splitFrom pred [] cs ≠ [] := by
        intro h
        have := splitFrom_length pred cs []
        simp [h] at this
      obtain ⟨t, ts, hts⟩ := List.exists_cons_of_ne_nil hne
      have := ih []
      rw [hts] at this
      simp only [splitFrom, hc, if_true, hts]
      simp [List.intercalate, List.intersperse] at this ⊢
      exact ⟨hcs.symm, this⟩
    · have hc2 : pred c = false := by simpa using hc
      simp only [splitFrom, hc2]
      have := ih (tok ++ [c])
      simpa using this

theorem splitFrom_eq_modifyHead (pred : Char → Bool) (cs : List Char) :
    ∀ tok : List Char,
      splitFrom pred tok cs = (cs.splitOnP pred).modifyHead (fun t => tok ++ t) := by
  induction cs with
  | nil => intro tok; simp [splitFrom, List.modifyHead]
  | cons c cs ih =>
    intro tok
    by_cases hc : pred c = true
    · simp only [splitFrom, List.splitOnP_cons, hc, if_true, ih []]
      cases List.splitOnP pred cs <;> simp [List.modifyHead]
    · have hc2 : pred c = false := by simpa using hc
      simp only [splitFrom, List.splitOnP_cons, hc2, ih (tok ++ [c])]
      cases List.splitOnP pred cs <;> simp [List.modifyHead]

/-- The scan agrees with the list library: started on an empty fragment it computes
`List.splitOnP`. -/
theorem splitFrom_eq_splitOnP (pred : Char → Bool) (cs : List Char) :
    splitFrom pred [] cs = cs.splitOnP pred := by
  rw [splitFrom_eq_modifyHead]
  cases List.splitOnP pred cs <;> simp [List.modifyHead]

theorem intercalate_cons (sep t : List Char) (ls : List (List Char)) :
    List.intercalate sep (t :: ls) = t ++ (ls.map (fun a => sep ++ a)).flatten := by
  induction ls generalizing t with
  | nil => simp [List.intercalate]
  | cons a ls ih =>
    have := ih a
    simp only [List.intercalate, List.intersperse] at this ⊢
    simp [this]

theorem intercalate_go_data (s : String) (ls : List String) :
    ∀ acc : String, (String.intercalate.go acc s ls).data =
      acc.data ++ (ls.map (fun a => s.data ++ a.data)).flatten := by
  induction ls with
  | nil => intro acc; simp [String.intercalate.go]
  | cons a ls ih =>
    intro acc
    simp [String.intercalate.go, ih, List.append_assoc]

theorem string_intercalate_data (s : String) (ls : List (List Char)) :
    (s.intercalate (ls.map String.mk)).data = List.intercalate s.data ls := by
  cases ls with
  | nil => simp [String.intercalate, List.intercalate]
  | cons t ts =>
    simp [String.intercalate, intercalate_go_data, intercalate_cons, Function.comp_def]

/-! ## The two conversions -/

theorem split_intercalate (F : String) : "/".intercalate (split F (is_any_of "/")) = F := by
  apply String.ext
  rw [split, string_intercalate_data]
  exact splitFrom_intercalate (is_any_of "/") '/' is_any_of_slash F.data []

theorem split_length (F : String) :
    (split F (is_any_of "/")).length = F.data.count '/' + 1 := by
  have hp : is_any_of "/" = fun c => c == '/' := by
    funext c
    by_cases h : c = '/'
    · simp [h, (is_any_of_slash '/').mpr rfl]
    · have : is_any_of "/" c = false := by
        simpa using fun hc => h ((is_any_of_slash c).mp hc)
      simp [h, this]
  simp only [split, List.length_map, splitFrom_length]
  rw [hp]
  rfl

theorem split_clean (F t : String) (ht : t ∈ split F (is_any_of "/")) : '/' ∉ t.data := by
  simp only [split, List.mem_map] at ht
  obtain ⟨l, hl, rfl⟩ := ht
  intro hmem
  have := splitFrom_clean (is_any_of "/") F.data [] (by simp) l hl '/' hmem
  simp [(is_any_of_slash '/').mpr rfl] at this

theorem split_frame (X : String) (h : '/' ∉ X.data) :
    split ("/" ++ X ++ "/map") (is_any_of "/") = ["", X, "map"] := by
  have hX : ∀ c ∈ X.data, is_any_of "/" c = false := by
    intro c hc
    have : ¬ is_any_of "/" c = true := fun hp => h ((is_any_of_slash c).mp hp ▸ hc)
    simpa using this
  have hs : is_any_of "/" '/' = true := (is_any_of_slash '/').mpr rfl
  have hd : ("/" ++ X ++ "/map").data = '/' :: (X.data ++ '/' :: "map".data) := by
    simp [String.data_append]
  have hm : splitFrom (is_any_of "/") [] "map".data = ["map".data] := by decide
  rw [split, hd, splitFrom_sep _ _ _ _ hs, splitFrom_append _ _ _ _ hX,
    splitFrom_sep _ _ _ _ hs, hm]
  simp

theorem frameIdFromLevelId_clean (L : String) (h : '/' ∉ L.data) :
    frameIdFromLevelId L = some ("/" ++ L ++ "/map") := by
  simp [frameIdFromLevelId, assert, (find_eq_none_iff L '/').mpr h]

theorem frameIdFromLevelId_slash (L : String) (h : '/' ∈ L.data) :
    frameIdFromLevelId L = none := by
  have hf : ¬ find L '/' = none := fun hn => (find_eq_none_iff L '/').mp hn h
  simp [frameIdFromLevelId, assert, hf]

theorem levelIdFromFrameId_eq_some_iff (F X : String) :
    levelIdFromFrameId F = some X ↔ split F (is_any_of "/") = ["", X, "map"] := by
  unfold levelIdFromFrameId assert
  constructor
  · intro h
    match hc : split F (is_any_of "/") with
    | [] => simp [hc] at h
    | [_] => simp [hc] at h
    | [_, _] => simp [hc] at h
    | [a, b, c] =>
      by_cases ha : a = "" <;> by_cases hm : c = "map" <;> simp [hc, ha, hm] at h ⊢
      exact h
    | _ :: _ :: _ :: _ :: _ => simp [hc] at h
  · intro h
    simp [h]

theorem levelIdFromFrameId_shape (F X : String) (h : levelIdFromFrameId F = some X) :
    '/' ∉ X.data ∧ F = "/" ++ X ++ "/map" := by
  have hs := (levelIdFromFrameId_eq_some_iff F X).mp h
  refine ⟨split_clean F X (by simp [hs]), ?_⟩
  have := split_intercalate F
  rw [hs] at this
  rw [← this]
  apply String.ext
  simp [String.intercalate, String.intercalate.go]

theorem frame_count_slash (X : String) (h : '/' ∉ X.data) :
    ("/" ++ X ++ "/map").data.count '/' = 2 := by
  have hd : ("/" ++ X ++ "/map").data = '/' :: (X.data ++ '/' :: "map".data) := by
    simp [String.data_append]
  have hm : "map".data.count '/' = 0 := by decide
  rw [hd]
  simp [List.count_cons, List.count_append, List.count_eq_zero_of_not_mem h, hm]

theorem frame_of_format (F : String) (hpre : "/".data <+: F.data)
    (hsuf : "/map".data <:+ F.data) (hcount : F.data.count '/' = 2) :
    ∃ X : String, '/' ∉ X.data ∧ F = "/" ++ X ++ "/map" := by
  obtain ⟨r, hr⟩ := hpre
  obtain ⟨p, hp⟩ := hsuf
  have hm : "/map".data.count '/' = 1 := by decide
  cases p with
  | nil =>
    rw [← hp] at hcount
    simp [hm] at hcount
  | cons a X =>
    have ha : a = '/' := by
      have h := hr.trans hp.symm
      simp only [List.cons_append] at h
      exact (List.cons.inj h).1.symm
    subst ha
    have hX : X.count '/' = 0 := by
      rw [← hp] at hcount
      simp only [List.cons_append, List.count_cons_self, List.count_append, hm] at hcount
      omega
    refine ⟨String.mk X, List.count_eq_zero.mp hX, ?_⟩
    apply String.ext
    rw [← hp]
    simp [String.data_append]

/-! ## The claims -/

/-- C1, round-trip law: for every level identifier `L` without `'/'` (the empty one
included) `frameIdFromLevelId L` returns a frame identifier, and `levelIdFromFrameId`
applied to that frame identifier returns `L`. -/
theorem roundtrip_level_frame_level (L : String) (h : '/' ∉ L.data) :
    ∃ F, frameIdFromLevelId L = some F ∧ levelIdFromFrameId F = some L :=
  ⟨"/" ++ L ++ "/map", frameIdFromLevelId_clean L h,
    (levelIdFromFrameId_eq_some_iff _ L).mpr (split_frame L h)⟩

theorem roundtrip_level_frame_level_witness :
    '/' ∉ "".data ∧
      ∃ F, frameIdFromLevelId "" = some F ∧ levelIdFromFrameId F = some "" :=
  ⟨by decide, roundtrip_level_frame_level "" (by decide)⟩

/-- C2: for every level identifier `L` without `'/'`, whatever else it contains,
`frameIdFromLevelId L` returns exactly `"/" ++ L ++ "/map"`. -/
theorem frameIdFromLevelId_value (L : String) (h : '/' ∉ L.data) :
    frameIdFromLevelId L = some ("/" ++ L ++ "/map") :=
  frameIdFromLevelId_clean L h

theorem frameIdFromLevelId_value_witness :
    ('/' ∉ "floor1".data ∧ frameIdFromLevelId "floor1" = some "/floor1/map") ∧
    ('/' ∉ "".data ∧ frameIdFromLevelId "" = some "//map") ∧
    ('/' ∉ " \t\x01".data ∧ frameIdFromLevelId " \t\x01" = some "/ \t\x01/map") :=
  ⟨⟨by decide, frameIdFromLevelId_value "floor1" (by decide)⟩,
    ⟨by decide, frameIdFromLevelId_value "" (by decide)⟩,
    ⟨by decide, frameIdFromLevelId_value " \t\x01" (by decide)⟩⟩

/-- C3: for every `X` without `'/'`, `levelIdFromFrameId` applied to
`"/" ++ X ++ "/map"` returns exactly `X`. -/
theorem levelIdFromFrameId_value (X : String) (h : '/' ∉ X.data) :
    levelIdFromFrameId ("/" ++ X ++ "/map") = some X :=
  (levelIdFromFrameId_eq_some_iff _ X).mpr (split_frame X h)

theorem levelIdFromFrameId_value_witness :
    '/' ∉ "floor1".data ∧ levelIdFromFrameId "/floor1/map" = some "floor1" :=
  ⟨by decide, levelIdFromFrameId_value "floor1" (by decide)⟩

/-- C4, rejection law of the constructor: for every `L` with at least one `'/'`,
`frameIdFromLevelId L` aborts on its assertion and returns no value. -/
theorem frameIdFromLevelId_rejects (L : String) (h : '/' ∈ L.data) :
    frameIdFromLevelId L = none :=
  frameIdFromLevelId_slash L h

theorem frameIdFromLevelId_rejects_witness :
    '/' ∈ "a/b".data ∧ frameIdFromLevelId "a/b" = none :=
  ⟨by decide, frameIdFromLevelId_rejects "a/b" (by decide)⟩

/-- C5, rejection law of the extractor: if the split of `F` on `'/'` does not have
exactly 3 fragments, or its first fragment is not the empty string, or its third
fragment is not `"map"`, then `levelIdFromFrameId F` aborts and returns no value. -/
theorem levelIdFromFrameId_rejects (F : String)
    (h : (split F (is_any_of "/")).length ≠ 3 ∨
      (split F (is_any_of "/"))[0]? ≠ some "" ∨
      (split F (is_any_of "/"))[2]? ≠ some "map") :
    levelIdFromFrameId F = none := by
  cases hr : levelIdFromFrameId F with
  | none => rfl
  | some X =>
    have hs := (levelIdFromFrameId_eq_some_iff F X).mp hr
    rw [hs] at h
    simp at h

theorem levelIdFromFrameId_rejects_witness :
    ((split "/floor1/extra/map" (is_any_of "/")).length = 4 ∧
      levelIdFromFrameId "/floor1/extra/map" = none) ∧
    ((split "x/floor1/map" (is_any_of "/"))[0]? = some "x" ∧
      levelIdFromFrameId "x/floor1/map" = none) ∧
    ((split "/floor1/maps" (is_any_of "/"))[2]? = some "maps" ∧
      levelIdFromFrameId "/floor1/maps" = none) :=
  ⟨⟨by decide, levelIdFromFrameId_rejects "/floor1/extra/map" (Or.inl (by decide))⟩,
    ⟨by decide, levelIdFromFrameId_rejects "x/floor1/map" (Or.inr (Or.inl (by decide)))⟩,
    ⟨by decide, levelIdFromFrameId_rejects "/floor1/maps" (Or.inr (Or.inr (by decide)))⟩⟩

/-- C6: `levelIdFromFrameId` aborts on every input that is not of the shape
`"/" ++ X ++ "/map"` with `X` free of `'/'`. -/
theorem levelIdFromFrameId_rejects_other_shapes (F : String)
    (h : ¬ ∃ X : String, '/' ∉ X.data ∧ F = "/" ++ X ++ "/map") :
    levelIdFromFrameId F = none := by
  cases hr : levelIdFromFrameId F with
  | none => rfl
  | some X => exact absurd ⟨X, levelIdFromFrameId_shape F X hr⟩ h

theorem levelIdFromFrameId_rejects_other_shapes_witness :
    ((¬ ∃ X : String, '/' ∉ X.data ∧ "" = "/" ++ X ++ "/map") ∧
      levelIdFromFrameId "" = none) ∧
    ((¬ ∃ X : String, '/' ∉ X.data ∧ "floor1" = "/" ++ X ++ "/map") ∧
      levelIdFromFrameId "floor1" = none) ∧
    ((¬ ∃ X : String, '/' ∉ X.data ∧ "/map" = "/" ++ X ++ "/map") ∧
      levelIdFromFrameId "/map" = none) ∧
    ((¬ ∃ X : String, '/' ∉ X.data ∧ "/floor1/map/" = "/" ++ X ++ "/map") ∧
      levelIdFromFrameId "/floor1/map/" = none) := by
  have key : ∀ F : String, F.data.count '/' ≠ 2 →
      ¬ ∃ X : String, '/' ∉ X.data ∧ F = "/" ++ X ++ "/map" := by
    rintro F hF ⟨X, hX, rfl⟩
    exact hF (frame_count_slash X hX)
  have h0 := key "" (by decide)
  have h1 := key "floor1" (by decide)
  have h2 := key "/map" (by decide)
  have h3 := key "/floor1/map/" (by decide)
  exact ⟨⟨h0, levelIdFromFrameId_rejects_other_shapes "" h0⟩,
    ⟨h1, levelIdFromFrameId_rejects_other_shapes "floor1" h1⟩,
    ⟨h2, levelIdFromFrameId_rejects_other_shapes "/map" h2⟩,
    ⟨h3, levelIdFromFrameId_rejects_other_shapes "/floor1/map/" h3⟩⟩

/-- C7, format law: for every level identifier `L` without `'/'`, the string returned
by `frameIdFromLevelId L` starts with `'/'`, ends with `"/map"` and holds exactly two
`'/'` characters. -/
theorem frameIdFromLevelId_format (L : String) (h : '/' ∉ L.data) :
    ∃ F, frameIdFromLevelId L = some F ∧
      "/".data <+: F.data ∧ "/map".data <:+ F.data ∧ F.data.count '/' = 2 := by
  refine ⟨"/" ++ L ++ "/map", frameIdFromLevelId_clean L h, ?_, ?_, frame_count_slash L h⟩
  · exact ⟨L.data ++ "/map".data, by simp [String.data_append]⟩
  · exact ⟨"/".data ++ L.data, by simp [String.data_append]⟩

theorem frameIdFromLevelId_format_witness :
    '/' ∉ "floor1".data ∧
      ∃ F, frameIdFromLevelId "floor1" = some F ∧
        "/".data <+: F.data ∧ "/map".data <:+ F.data ∧ F.data.count '/' = 2 :=
  ⟨by decide, frameIdFromLevelId_format "floor1" (by decide)⟩

/-- C8, the other direction of the inverse pair: whenever `levelIdFromFrameId F`
returns a level identifier `X`, `frameIdFromLevelId X` returns `F`. -/
theorem roundtrip_frame_level_frame (F X : String) (h : levelIdFromFrameId F = some X) :
    frameIdFromLevelId X = some F := by
  obtain ⟨hX, hF⟩ := levelIdFromFrameId_shape F X h
  rw [hF]
  exact frameIdFromLevelId_clean X hX

theorem roundtrip_frame_level_frame_witness :
    levelIdFromFrameId "/floor1/map" = some "floor1" ∧
      frameIdFromLevelId "floor1" = some "/floor1/map" :=
  ⟨by decide, roundtrip_frame_level_frame "/floor1/map" "floor1" (by decide)⟩

/-- C9, splitting policy of the extractor: for every `F` the split on `'/'` yields
(number of `'/'` in `F`) + 1 fragments, no fragment holds a `'/'`, and joining the
fragments with `"/"` gives back `F`; `"/floor1/map"` splits into `["", "floor1", "map"]`,
the empty string into `[""]`, and leading, consecutive and trailing separators each
leave an empty fragment. -/
theorem split_policy :
    (∀ F : String,
      (split F (is_any_of "/")).length = F.data.count '/' + 1 ∧
      (∀ t ∈ split F (is_any_of "/"), '/' ∉ t.data) ∧
      "/".intercalate (split F (is_any_of "/")) = F) ∧
    split "/floor1/map" (is_any_of "/") = ["", "floor1", "map"] ∧
    split "" (is_any_of "/") = [""] ∧
    split "/a//b/" (is_any_of "/") = ["", "a", "", "b", ""] :=
  ⟨fun F => ⟨split_length F, fun t ht => split_clean F t ht, split_intercalate F⟩,
    by decide, by decide, by decide⟩

/-- C10: `frameIdFromLevelId` is injective on level identifiers without `'/'`. -/
theorem frameIdFromLevelId_injective (L1 L2 : String)
    (h1 : '/' ∉ L1.data) (h2 : '/' ∉ L2.data)
    (heq : frameIdFromLevelId L1 = frameIdFromLevelId L2) : L1 = L2 := by
  rw [frameIdFromLevelId_clean L1 h1, frameIdFromLevelId_clean L2 h2] at heq
  have hd := congrArg String.data (Option.some.inj heq)
  simp only [String.data_append] at hd
  exact String.ext (List.append_cancel_left (List.append_cancel_right hd))

theorem frameIdFromLevelId_injective_witness :
    '/' ∉ "floor1".data ∧ frameIdFromLevelId "floor1" = frameIdFromLevelId "floor1" ∧
      "floor1" = "floor1" :=
  ⟨by decide, rfl,
    frameIdFromLevelId_injective "floor1" "floor1" (by decide) (by decide) rfl⟩

/-- C11: the inputs accepted by `levelIdFromFrameId` are exactly the strings that
satisfy the format law: `levelIdFromFrameId F` returns a value if and only if `F`
starts with `'/'`, ends with `"/map"` and holds exactly two `'/'` characters; so
`"/map"`, which starts with `'/'` and ends with `"/map"` but holds one `'/'`, is
rejected. -/
theorem levelIdFromFrameId_accepts_iff_format :
    (∀ F : String, (levelIdFromFrameId F).isSome = true ↔
      ("/".data <+: F.data ∧ "/map".data <:+ F.data ∧ F.data.count '/' = 2)) ∧
    ("/".data <+: "/map".data ∧ "/map".data <:+ "/map".data ∧
      "/map".data.count '/' = 1 ∧ levelIdFromFrameId "/map" = none) := by
  refine ⟨fun F => ⟨?_, ?_⟩, ⟨"map".data, rfl⟩, ⟨[], rfl⟩, by decide, by decide⟩
  · intro h
    obtain ⟨X, hX⟩ := Option.isSome_iff_exists.mp h
    obtain ⟨hclean, hF⟩ := levelIdFromFrameId_shape F X hX
    rw [hF]
    exact ⟨⟨X.data ++ "/map".data, by simp [String.data_append]⟩,
      ⟨"/".data ++ X.data, by simp [String.data_append]⟩, frame_count_slash X hclean⟩
  · rintro ⟨hpre, hsuf, hcount⟩
    obtain ⟨X, hclean, hF⟩ := frame_of_format F hpre hsuf hcount
    rw [hF, (levelIdFromFrameId_eq_some_iff _ X).mpr (split_frame X hclean)]
    rfl

/-- C12: whenever `levelIdFromFrameId F` returns a level identifier `X`, `X` holds no
`'/'`, so it passes the assertion of `frameIdFromLevelId`, and `F` is exactly 5
characters longer than `X`: the length of `F` is the length of `X` plus 5, hence `F`
has at least 5 characters and the length of `X` is the length of `F` minus 5 with
no truncation. -/
theorem levelIdFromFrameId_result_wellformed (F X : String)
    (h : levelIdFromFrameId F = some X) :
    '/' ∉ X.data ∧ find X '/' = none ∧
      F.length = X.length + 5 ∧ 5 ≤ F.length ∧ X.length = F.length - 5 := by
  obtain ⟨hclean, hF⟩ := levelIdFromFrameId_shape F X h
  have hlen : F.length = X.length + 5 := by
    have h1 : "/".length = 1 := by decide
    have h4 : "/map".length = 4 := by decide
    rw [hF, String.length_append, String.length_append, h1, h4]
    omega
  exact ⟨hclean, (find_eq_none_iff X '/').mpr hclean, hlen, by omega, by omega⟩

theorem levelIdFromFrameId_result_wellformed_witness :
    levelIdFromFrameId "/floor1/map" = some "floor1" ∧
      '/' ∉ "floor1".data ∧ find "floor1" '/' = none ∧
      "/floor1/map".length = "floor1".length + 5 ∧ 5 ≤ "/floor1/map".length ∧
      "floor1".length = "/floor1/map".length - 5 :=
  ⟨by decide, levelIdFromFrameId_result_wellformed "/floor1/map" "floor1" (by decide)⟩

end multi_level_map
